import Mathlib

/-!
# Verification of the diff/patch core of `src/utils/diff.py`

A shallow embedding of the unified-diff hunk renderer and patch engine
(`make_str`, `Hunk`, `_Superhunk`, `PatchManager`) of `src/utils/diff.py`,
together with theorems settling the frozen claims about it.

Conventions:
* Python line sequences become `List String`; character walks use `List Char`
  (Python indexes strings by characters, as does this embedding).
* Python's unbounded `int` arithmetic on possibly-negative quantities
  (`pre_context`, `post_context`, context ranges) is embedded as `Int`;
  list indices coming straight from opcodes are `Nat`.
* The sequence aligner (`difflib.SequenceMatcher`, `difflib.ndiff`,
  `difflib._format_range_unified`) is an external library, not part of the
  repository; the spec (sections 1, 4.1, 4.2) treats it as a provided
  primitive with a stated contract.  Definitions for it below are marked
  `Modelled from the spec:`; theorems that are universal over texts are
  stated over any opcode groups satisfying the spec's contract
  (`groupsWFfrom`), and concrete scenarios are evaluated through the
  modelled aligner.
-/

set_option maxRecDepth 8000

namespace Diff

/-! ## Generic list/string helpers (Python primitive semantics) -/

/-- Python slice `xs[i:j]` for non-negative `i`, `j`. -/
def slice (xs : List α) (i j : Nat) : List α :=
  (xs.drop i).take (j - i)

/-- Python slice `xs[i:j]` for arbitrary `Int` bounds (negative wraps from the end). -/
def pySlice (xs : List α) (i j : Int) : List α :=
  let n : Int := xs.length
  let lo : Nat := (if i < 0 then max 0 (n + i) else min i n).toNat
  let hi : Nat := (if j < 0 then max 0 (n + j) else min j n).toNat
  (xs.drop lo).take (hi - lo)

/-- Python `pat in s` / `s.find(pat) != -1` on strings (character based). -/
def strContains (s pat : String) : Bool :=
  (List.range (s.data.length + 1)).any fun i => decide (pat.data <+: s.data.drop i)

/-- Python `s.startswith(pat)`. -/
def strStartsWith (s pat : String) : Bool :=
  decide (pat.data <+: s.data)

/-- Python `s.endswith(pat)`. -/
def strEndsWith (s pat : String) : Bool :=
  decide (pat.data <:+ s.data)

/-- Python `len(s)` (number of characters). -/
def strLen (s : String) : Nat := s.data.length

/-- Python `s[:n]` (character based). -/
def strTake (s : String) (n : Nat) : String := String.mk (s.data.take n)

/-- Python whitespace test for the characters appearing in this code path. -/
def isPySpace (c : Char) : Bool :=
  c = ' ' || c = '\t' || c = '\n' || c = '\x0d' || c = '\x0b' || c = '\x0c'

/-- Python `s.rstrip()`. -/
def pyRstrip (s : String) : String :=
  String.mk ((s.data.reverse.dropWhile isPySpace).reverse)

/-- Python `s.strip()`. -/
def pyStrip (s : String) : String :=
  String.mk ((s.data.dropWhile isPySpace).reverse.dropWhile isPySpace |>.reverse)

/-- Modelled from the spec: `text.splitlines(True)` of the Python standard
library ("splitting a text blob on line boundaries without discarding
terminators", section 3); the line boundary is modelled as `'\n'`. -/
def splitlinesTrue (s : String) : List String :=
  go s.data []
where
  /-- Accumulate the current line (reversed) while walking the characters. -/
  go : List Char → List Char → List String
  | [], acc => if acc.isEmpty then [] else [String.mk acc.reverse]
  | c :: rest, acc =>
    if c = '\n' then String.mk (acc.reverse ++ ['\n']) :: go rest []
    else go rest (c :: acc)

/-! ## Opcodes and the sequence aligner

The aligner is the external primitive of section 4.1 of the design:
"produces grouped opcodes — ordered list of `(tag, i1, i2, j1, j2)` tuples
over two line sequences"; "the line-alignment algorithm itself
(longest-matching-subsequence style sequence comparison) is treated as a
provided primitive". -/

/-- Opcode tag: `equal`/`delete`/`insert`/`replace`. -/
inductive Tag where
  | equal
  | delete
  | insert
  | replace
deriving DecidableEq, Repr

/-- One alignment instruction `(tag, i1, i2, j1, j2)` over index ranges. -/
structure Opcode where
  tag : Tag
  i1 : Nat
  i2 : Nat
  j1 : Nat
  j2 : Nat
deriving DecidableEq, Repr

/-- Placeholder opcode used for the (unreachable) empty-group accesses. -/
def dummyOp : Opcode := ⟨.equal, 0, 0, 0, 0⟩

/-- First opcode of a group (`group[0]`). -/
def firstOp (g : List Opcode) : Opcode := g.head?.getD dummyOp

/-- Last opcode of a group (`group[-1]`). -/
def lastOp (g : List Opcode) : Opcode := g.getLast?.getD dummyOp

/-- Length of the common prefix of two lists (longest matching run). -/
def commonRunL [DecidableEq α] : List α → List α → Nat
  | x :: xs, y :: ys => if x = y then commonRunL xs ys + 1 else 0
  | _, _ => 0

/-- One candidate step of the longest-match search: take the run starting at
`(i, j)` (capped to the search window) when strictly longer than the best. -/
def flmCand [DecidableEq α] (a b : List α) (ahi bhi : Nat)
    (best : Nat × Nat × Nat) (i j : Nat) : Nat × Nat × Nat :=
  if best.2.2 < min (commonRunL (a.drop i) (b.drop j)) (min (ahi - i) (bhi - j)) then
    (i, j, min (commonRunL (a.drop i) (b.drop j)) (min (ahi - i) (bhi - j)))
  else best

/-- Modelled from the spec: the longest matching block of
`a[alo:ahi]` and `b[blo:bhi]` ("longest-matching-subsequence style sequence
comparison", section 1), ties resolved to the earliest start in `a`, then in
`b`, as in the standard library primitive the spec assumes. -/
def findLongestMatch [DecidableEq α] (a b : List α) (alo ahi blo bhi : Nat) :
    Nat × Nat × Nat :=
  (List.range' alo (ahi - alo)).foldl
    (fun best i =>
      (List.range' blo (bhi - blo)).foldl (fun best j => flmCand a b ahi bhi best i j) best)
    (alo, blo, 0)

/-- Modelled from the spec: the ordered list of maximal matching blocks of
`a[alo:ahi]` vs `b[blo:bhi]` — recursively the longest match with the blocks
of the halves on either side of it.  Structural on an explicit `fuel`
(callers pass `a.length + b.length + 1`, which always suffices). -/
def matchingBlocksAux [DecidableEq α] (a b : List α) :
    Nat → Nat → Nat → Nat → Nat → List (Nat × Nat × Nat)
  | 0, _, _, _, _ => []
  | fuel + 1, alo, ahi, blo, bhi =>
    match findLongestMatch a b alo ahi blo bhi with
    | (i, j, k) =>
      if k = 0 then []
      else
        matchingBlocksAux a b fuel alo i blo j ++ ((i, j, k) ::
          matchingBlocksAux a b fuel (i + k) ahi (j + k) bhi)

/-- Modelled from the spec: all matching blocks of `a` and `b` plus the
terminating sentinel `(len(a), len(b), 0)`. -/
def matchingBlocks [DecidableEq α] (a b : List α) : List (Nat × Nat × Nat) :=
  matchingBlocksAux a b (a.length + b.length + 1) 0 a.length 0 b.length ++
    [(a.length, b.length, 0)]

/-- Modelled from the spec: turn matching blocks into the opcode edit script —
between consecutive blocks emit `replace`/`delete`/`insert` for the
non-matching gap, then `equal` for the block itself (section 3: opcodes
partition both index ranges contiguously and in order). -/
def opcodesFromBlocks : Nat → Nat → List (Nat × Nat × Nat) → List Opcode
  | _, _, [] => []
  | i, j, (ai, bj, size) :: rest =>
    (if i < ai ∧ j < bj then [⟨.replace, i, ai, j, bj⟩]
     else if i < ai then [⟨.delete, i, ai, j, bj⟩]
     else if j < bj then [⟨.insert, i, ai, j, bj⟩]
     else []) ++
    (if size ≠ 0 then [⟨.equal, ai, ai + size, bj, bj + size⟩] else []) ++
    opcodesFromBlocks (ai + size) (bj + size) rest

/-- Modelled from the spec: the full opcode list for two sequences
(`difflib.SequenceMatcher(None, a, b).get_opcodes()` of section 4.1). -/
def getOpcodes [DecidableEq α] (a b : List α) : List Opcode :=
  opcodesFromBlocks 0 0 (matchingBlocks a b)

/-- Modelled from the spec: grouping with context threshold 0 — "with
threshold 0, every equal run fully separates groups (no padding)"
(section 4.1).  Each group is a maximal run of non-`equal` opcodes.  (The
library's groups additionally carry zero-width `equal` boundary markers,
which contribute no lines and do not move the group's ranges, so they are
dropped here.) -/
def groupOpcodes0 (ops : List Opcode) : List (List Opcode) :=
  go ops []
where
  /-- Walk the opcodes keeping the current (reversed) run of non-equal ones. -/
  go : List Opcode → List Opcode → List (List Opcode)
  | [], cur => if cur.isEmpty then [] else [cur.reverse]
  | op :: rest, cur =>
    if op.tag = .equal then
      if cur.isEmpty then go rest [] else cur.reverse :: go rest []
    else go rest (op :: cur)

/-! ## Colorizer: `get_color_table` and `make_str` -/

/-- The color-name table of `get_color_table`: base ANSI numbers, the
`light*` aliases, and the extra names, applied in the source's build order
(in particular `grey` is first bound to 99 and then overwritten with
`gray`'s 100).  The entry `"light"` is bound to the falsy `0` in the source
and therefore never styles anything; it is omitted here, which has the same
observable behaviour in `make_str` (`if cc:` fails either way). -/
def colorEntries : List (String × Nat) :=
  [("red", 91), ("green", 92), ("yellow", 93), ("blue", 94), ("purple", 95),
   ("cyan", 96), ("white", 97), ("black", 98),
   ("gray", 100), ("underline", 4), ("invert", 7), ("blink", 5),
   ("lightblack", 108), ("bold", 1),
   ("lightpurple", 95), ("lightyellow", 93), ("lightblue", 94),
   ("lightred", 91), ("lightgreen", 92), ("lightcyan", 96), ("lightgray", 100),
   ("aqua", 96), ("lightaqua", 96), ("lightgrey", 100), ("grey", 100),
   ("lightwhite", 100)]

/-- Embedding of `color_table.get(name, "")`, as the ANSI number when present. -/
def colorCode (name : String) : Option Nat :=
  go colorEntries
where
  /-- Linear lookup in the association list. -/
  go : List (String × Nat) → Option Nat
  | [] => none
  | (k, v) :: rest => if k = name then some v else go rest

/-- Embedding of `cc % text` for the table's format string `"\033[{v}m%s\033[00m"`. -/
def applyCode (v : Nat) (text : String) : String :=
  "\x1b[" ++ Nat.repr v ++ "m" ++ text ++ "\x1b[00m"

/-- A regex `\w` word character (ASCII portion, which is all this code meets). -/
def isWordChar (c : Char) : Bool :=
  c.isAlpha || c.isDigit || c = '_'

/-- One body token of the color-tag pattern `(:?\w+|previous)`: an optional
colon followed by one or more word characters.  Returns the consumed
characters (the capture includes the colon) and the rest. -/
def parseToken (cs : List Char) : Option (List Char × List Char) :=
  match cs with
  | ':' :: r =>
    let w := r.takeWhile isWordChar
    if w.isEmpty then none else some (':' :: w, r.dropWhile isWordChar)
  | _ =>
    let w := cs.takeWhile isWordChar
    if w.isEmpty then none else some (w, cs.dropWhile isWordChar)

/-- The tag closer `(?:}|>>)`. -/
def parseCloser : List Char → Option (List Char)
  | '\x7d' :: r => some r
  | '>' :: '>' :: r => some r
  | _ => none

/-- The tag body-and-closer `((:?\w+|previous);?(:?\w+|previous)?)(?:}|>>)`
directly after an opener: the captured body (group 1 of `_color_pat` — the
whole one- or two-token text, semicolon included) and the remaining input. -/
def parseTag (cs : List Char) : Option (String × List Char) :=
  match parseToken cs with
  | none => none
  | some (t1, r1) =>
    let semi : List Char := if r1.head? = some ';' then [';'] else []
    let r2 := if r1.head? = some ';' then r1.tail else r1
    let (t2, r3) :=
      match parseToken r2 with
      | some (t, r) => (t, r)
      | none => (([] : List Char), r2)
    match parseCloser r3 with
    | some r4 => some (String.mk (t1 ++ semi ++ t2), r4)
    | none => none

/-- The scanner behind `colorTagR.split(textm)`: walk the characters; at each
position try to match an opener (`<<` or `\x03{`) followed by a tag body and
closer, exactly as `re.split` finds leftmost non-overlapping matches.
Produces the `(text, captured body)` pairs — precisely the
`zip(text_parts[::4], text_parts[1::4])` pairing of the source (groups 2 and
3 of the pattern are dropped by the stride-4 slicing) — plus the trailing
text.  Structural on a fuel bounded by the input length. -/
def scanTagsGo : Nat → List Char → List Char → List (String × String) × String
  | 0, cs, acc => ([], String.mk (acc.reverse ++ cs))
  | _ + 1, [], acc => ([], String.mk acc.reverse)
  | fuel + 1, c :: rest, acc =>
    let afterOpen : Option (List Char) :=
      if c = '<' then
        match rest with
        | '<' :: r => some r
        | _ => none
      else if c = '\x03' then
        match rest with
        | '\x7b' :: r => some r
        | _ => none
      else none
    match afterOpen with
    | some r =>
      match parseTag r with
      | some (body, rest') =>
        let next := scanTagsGo fuel rest' []
        ((String.mk acc.reverse, body) :: next.1, next.2)
      | none => scanTagsGo fuel rest (c :: acc)
    | none => scanTagsGo fuel rest (c :: acc)

/-- Embedding of `colorTagR.split(textm)` restructured as tag pairs plus trailing text. -/
def scanTags (s : String) : List (String × String) × String :=
  scanTagsGo (s.data.length + 1) s.data []

/-- The body of `make_str`'s loop over `zip(text_parts[::4],
text_parts[1::4])`: render each `(text, next_color)` pair with the current
top of the color stack, then push `next_color` (or pop on `"previous"`,
never shrinking the stack below one element). -/
def renderLoop : List String → String → List (String × String) → String
  | _, out, [] => out
  | stack, out, (text, next_color) :: rest =>
    let current := stack.head?.getD "default"
    let stack' :=
      if next_color = "previous" then
        if 1 < stack.length then stack.tail else stack
      else next_color :: stack
    let text' :=
      match colorCode current with
      | some v => applyCode v text
      | none => text
    renderLoop stack' (out ++ text') rest

/-- Embedding of `make_str` on a string argument: fast path when the text has no `\x03`
and no `<<`, else split on color tags and render with the color stack
(initially `["default"]`; the split parts get a final `"default"`
appended). -/
def makeStr (textm : String) : String :=
  if strContains textm "\x03" = false ∧ strContains textm "<<" = false then textm
  else
    let parts := scanTags textm
    renderLoop ["default"] "" (parts.1 ++ [(parts.2, "default")])

/-- A Python value reaching `make_str`: a string or some non-string value
(kept opaque). -/
inductive PyVal where
  | str (s : String)
  | nonStr (v : Nat)
deriving DecidableEq, Repr

/-- Embedding of `make_str` including the `isinstance(textm, str)` guard: non-string
inputs are returned unchanged. -/
def make_str : PyVal → PyVal
  | .nonStr v => .nonStr v
  | .str s => .str (makeStr s)

/-! ## `Hunk` -/

/-- Embedding of `check_line` of `Hunk.create_diff`: guarantee a trailing newline. -/
def checkLine (line : String) : String :=
  if strEndsWith line "\n" then line else line ++ "\n"

/-- A-side marker characters of an intra-line character diff: spaces for
`equal`, `^` for `replace`, `-` for `delete` stretches. -/
def ndiffTagsA (ops : List Opcode) : String :=
  String.mk (ops.flatMap fun op =>
    match op.tag with
    | .equal => List.replicate (op.i2 - op.i1) ' '
    | .replace => List.replicate (op.i2 - op.i1) '^'
    | .delete => List.replicate (op.i2 - op.i1) '-'
    | .insert => [])

/-- B-side marker characters of an intra-line character diff: spaces for
`equal`, `^` for `replace`, `+` for `insert` stretches. -/
def ndiffTagsB (ops : List Opcode) : String :=
  String.mk (ops.flatMap fun op =>
    match op.tag with
    | .equal => List.replicate (op.j2 - op.j1) ' '
    | .replace => List.replicate (op.j2 - op.j1) '^'
    | .insert => List.replicate (op.j2 - op.j1) '+'
    | .delete => [])

/-- Modelled from the spec: the rendering of one aligned line pair inside a
`replace` opcode (section 4.2: "for each aligned pair of lines emits
`\"- \"`, `\"+ \"`, `\"? \"` marker lines showing intra-line character
differences, or `\"  \"` for unchanged lines"); the `?` marker lines are
right-stripped and omitted when empty, as in the library primitive. -/
def ndiffPair (al bl : String) : List String :=
  if al = bl then ["  " ++ al]
  else
    let ops := getOpcodes al.data bl.data
    let atags := pyRstrip (ndiffTagsA ops)
    let btags := pyRstrip (ndiffTagsB ops)
    ["- " ++ al] ++ (if atags ≠ "" then ["? " ++ atags ++ "\n"] else []) ++
      ["+ " ++ bl] ++ (if btags ≠ "" then ["? " ++ btags ++ "\n"] else [])

/-- Modelled from the spec: `difflib.ndiff` as consumed by
`Hunk.create_diff` on a `replace` opcode — align the two line runs pairwise
in order, then emit the unpaired leftovers as pure deletions/insertions. -/
def ndiffModel (la lb : List String) : List String :=
  let n := min la.length lb.length
  ((la.take n).zip (lb.take n)).flatMap (fun p => ndiffPair p.1 p.2) ++
    (la.drop n).map (fun l => "- " ++ l) ++ (lb.drop n).map (fun l => "+ " ++ l)

/-- Embedding of `Hunk.create_diff`: the unformatted diff lines of one opcode group. -/
def createDiff (a b : List String) (group : List Opcode) : List String :=
  group.flatMap fun op =>
    match op.tag with
    | .equal => (slice a op.i1 op.i2).map fun line => "  " ++ checkLine line
    | .delete => (slice a op.i1 op.i2).map fun line => "- " ++ checkLine line
    | .insert => (slice b op.j1 op.j2).map fun line => "+ " ++ checkLine line
    | .replace => (ndiffModel (slice a op.i1 op.i2) (slice b op.j1 op.j2)).map checkLine

/-- Embedding of `Hunk.colors` / `Hunk.bg_colors` (they are equal in the source): the
full-character and whitespace-character tints keyed by the line's sign. -/
def hunkColors (c : Char) : Option String :=
  if c = '+' then some "lightgreen" else if c = '-' then some "lightred" else none

/-- The character walk of `Hunk.color_line` with a reference line:
`zip_longest(line, line_ref.strip(), fillvalue=' ')`, opening a color span
where the reference is non-blank (a `default;bg` span when the underlying
character is itself a space) and closing it with `<<default>>` where the
reference returns to blank. -/
def colorLineStep (color c r : Char) (closed : Bool) : String × Bool :=
  if closed then
    if r ≠ ' ' then
      let applied :=
        if c ≠ ' ' then (hunkColors color).getD ""
        else "default;" ++ (hunkColors color).getD ""
      ("<<" ++ applied ++ ">>" ++ String.mk [c], false)
    else (String.mk [c], true)
  else
    if r = ' ' then ("<<default>>" ++ String.mk [c], true)
    else (String.mk [c], closed)

/-- The tail of the `zip_longest` walk once the line characters are
exhausted: remaining reference characters pair with the `' '` fill value. -/
def colorLineTail (color : Char) : List Char → Bool → String
  | [], closed => if closed then "" else "<<default>>"
  | r :: rs, closed =>
    let step := colorLineStep color ' ' r closed
    step.1 ++ colorLineTail color rs step.2

/-- The `zip_longest` walk over the line and reference characters; reference
characters past their end pair with the `' '` fill value. -/
def colorLineGo (color : Char) : List Char → List Char → Bool → String
  | [], rs, closed => colorLineTail color rs closed
  | c :: cs, rs, closed =>
    let step := colorLineStep color c (rs.head?.getD ' ') closed
    step.1 ++ colorLineGo color cs rs.tail step.2

/-- Embedding of `Hunk.color_line`: with no reference, wrap the whole `-`/`+` line in a
single color tag; with a reference line, color character-by-character.
(`self.colors[color]` raises a `KeyError` in the source when the line starts
with neither sign and a reference is given; that path is unreachable from
`format_diff` and is rendered here as an empty color name.) -/
def colorLine (line : String) (line_ref : Option String) : String :=
  let color := line.data.head?.getD ' '
  match line_ref with
  | none =>
    match hunkColors color with
    | some cname => "<<" ++ cname ++ ">>" ++ line ++ "<<default>>"
    | none => line
  | some ref => colorLineGo color line.data (pyStrip ref).data true

/-- The loop body of `Hunk.format_diff` after the initial priming
(`line1, line2 = "", next(diff)`): the persistent state across iterations is
the pair `(line1, line2)`; `fmt` is re-bound to the old `line1` at the top
of every iteration.  The `[]` case is the duplicated trailing-line handling
after the loop. -/
def fdLoop : String → String → List String → List String
  | line1, line2, [] =>
    if strStartsWith line2 "-" then [colorLine line2 none]
    else if strStartsWith line2 "+" then
      let fmt := if strStartsWith line1 "?" then line1 else ""
      let fmt := strTake fmt (min (strLen fmt) (strLen line2))
      [colorLine line2 (if fmt = "" then none else some fmt)]
    else []
  | line1, line2, line :: rest =>
    let fmt := line1
    let l1 := line2
    let l2 := line
    if strStartsWith l1 "?" then fdLoop l1 l2 rest
    else if strStartsWith l2 "?" then
      colorLine l1 (some l2) :: fdLoop l1 (if strStartsWith l1 "+" then "" else l2) rest
    else if strStartsWith l1 "-" then colorLine l1 none :: fdLoop l1 l2 rest
    else if strStartsWith l1 "+" then
      let f := if strStartsWith fmt "?" then fmt else ""
      let f := strTake f (min (strLen f) (strLen l1))
      colorLine l1 (if f = "" then none else some f) :: fdLoop l1 l2 rest
    else fdLoop l1 l2 rest

/-- Embedding of `Hunk.format_diff`: color the diff lines with one-line lookahead.  (On an
empty diff the source's `next(diff)` would fail; hunks always render at
least one line.) -/
def formatDiff : List String → List String
  | [] => []
  | first :: rest => fdLoop "" first rest

/-- Embedding of `difflib._format_range_unified`, imported by the source as
`format_range_unified`.  Modelled from the spec: "1-based, comma-joined
range notation where a length-1 range omits the comma+length suffix
(standard unified-diff range formatting)" (section 4.2); empty ranges begin
at the line just before the range, as in the standard format. -/
def format_range_unified (start stop : Int) : String :=
  let beginning := start + 1
  let length := stop - start
  if length = 1 then toString beginning
  else toString (if length = 0 then beginning - 1 else beginning) ++ "," ++ toString length

/-- Embedding of `get_header_text` (the module-level function and the identical static
method of `Hunk`): `"@@ -<a_rng> +<b_rng> @@"`. -/
def get_header_text (a_rng b_rng : Int × Int) : String :=
  "@@ -" ++ format_range_unified a_rng.1 a_rng.2 ++ " +" ++
    format_range_unified b_rng.1 b_rng.2 ++ " @@"

/-- One change hunk between `a` and `b`, as built by `Hunk.__init__`:
the stored sequences and opcode group, the rendered diff in its three forms,
the spanned ranges, the header, and the two context counters that
`PatchManager.__init__` fills in after construction. -/
structure Hunk where
  a : List String
  b : List String
  group : List Opcode
  diff : List String
  diff_plain_text : String
  diff_text : String
  a_rng : Nat × Nat
  b_rng : Nat × Nat
  header : String
  pre_context : Int
  post_context : Int
deriving DecidableEq, Repr

/-- Embedding of `Hunk.__init__` (with the context counters at their initial 0):
`a_rng`/`b_rng` span from the first opcode to the last; the header is
`get_header_text` plus a newline, and `diff_plain_text` is the header line,
a (second) newline from the f-string, then the joined diff. -/
def mkHunk (a b : List String) (group : List Opcode) : Hunk :=
  let diff := createDiff a b group
  let first := firstOp group
  let last := lastOp group
  let a_rng := (first.i1, last.i2)
  let b_rng := (first.j1, last.j2)
  let header := get_header_text ((a_rng.1 : Int), (a_rng.2 : Int))
    ((b_rng.1 : Int), (b_rng.2 : Int)) ++ "\n"
  { a := a, b := b, group := group, diff := diff,
    diff_plain_text := header ++ "\n" ++ String.join diff,
    diff_text := String.join (formatDiff diff),
    a_rng := a_rng, b_rng := b_rng, header := header,
    pre_context := 0, post_context := 0 }

/-- Placeholder hunk for the (unreachable) empty-list accesses. -/
def dummyHunk : Hunk := mkHunk [] [] []

/-! ## `_Superhunk` and `PatchManager` -/

/-- Embedding of `_Superhunk`: an ordered run of consecutive hunks rendered as one unit.
Built by `_Superhunk.__init__` from a non-empty hunk list. -/
structure Superhunk where
  hunks : List Hunk
  a_rng : Nat × Nat
  b_rng : Nat × Nat
  pre_context : Int
  post_context : Int
deriving DecidableEq, Repr

/-- Embedding of `_Superhunk.__init__`: ranges span from the first hunk's start to the
last hunk's end; `pre_context` comes from `self._hunks[0]` and — exactly as
in the source — `post_context` also comes from `self._hunks[0]`. -/
def Superhunk.ofHunks (hs : List Hunk) : Superhunk :=
  let first := hs.head?.getD dummyHunk
  let last := hs.getLast?.getD dummyHunk
  { hunks := hs,
    a_rng := (first.a_rng.1, last.a_rng.2),
    b_rng := (first.b_rng.1, last.b_rng.2),
    pre_context := first.pre_context,
    post_context := first.post_context }

/-- One element of `PatchManager.get_blocks()`:
`(-1, (i1, i2), (-1, -1))` for an unchanged span, or
`(hunk index, (i1, i2), (j1, j2))` for a changed span. -/
structure Block where
  idx : Int
  aRng : Nat × Nat
  bRng : Int × Int
deriving DecidableEq, Repr

/-- The loop of `PatchManager.get_blocks()`: walk the groups carrying the
previous group's end `i2` (initially 0) and the running hunk index, emitting
an unchanged block whenever the previous end falls short of the next group's
start, and a final unchanged block for any tail of `a`. -/
def gbLoop (alen : Nat) : Nat → Nat → List (List Opcode) → List Block
  | i2, _, [] => if i2 < alen then [⟨-1, (i2, alen), (-1, -1)⟩] else []
  | i2, idx, g :: gs =>
    let first := firstOp g
    let last := lastOp g
    (if i2 < first.i1 then [(⟨-1, (i2, first.i1), (-1, -1)⟩ : Block)] else []) ++
      (⟨(idx : Int), (first.i1, last.i2), ((first.j1 : Int), (last.j2 : Int))⟩ : Block) ::
        gbLoop alen last.i2 (idx + 1) gs

/-- Embedding of `PatchManager.get_blocks()` as a function of the A length and groups. -/
def get_blocks (alen : Nat) (groups : List (List Opcode)) : List Block :=
  gbLoop alen 0 0 groups

/-- The single pass of `PatchManager.__init__` that fills in every hunk's
`pre_context`/`post_context`: a hunk's `pre_context` is its A start minus
the previous hunk's A end (its A start alone for the first hunk); each
non-last hunk's `post_context` equals the next hunk's `pre_context`, and the
last hunk's `post_context` is `len(a)` minus its A end. -/
def setContexts (alen : Nat) : Int → List Hunk → List Hunk
  | _, [] => []
  | prevEnd, [h] =>
    [{ h with pre_context := (h.a_rng.1 : Int) - prevEnd,
              post_context := (alen : Int) - (h.a_rng.2 : Int) }]
  | prevEnd, h :: h' :: t =>
    { h with pre_context := (h.a_rng.1 : Int) - prevEnd,
             post_context := (h'.a_rng.1 : Int) - (h.a_rng.2 : Int) } ::
      setContexts alen (h.a_rng.2 : Int) (h' :: t)

/-- The accumulation loop of `PatchManager._generate_super_hunks` for a
non-zero context: `cur` is the super-hunk currently being grown (the list
object aliased into `super_hunks` in the source), `acc` the finished ones. -/
def sgLoop (c2 : Int) : List Hunk → List (List Hunk) → List Hunk → List (List Hunk)
  | cur, acc, [] => acc ++ [cur]
  | cur, acc, h :: rest =>
    if cur.isEmpty ∨ h.pre_context ≤ c2 then sgLoop c2 (cur ++ [h]) acc rest
    else sgLoop c2 [h] (acc ++ [cur]) rest

/-- Embedding of `PatchManager._generate_super_hunks(hunks)`: nothing for no hunks; for a
truthy context, hunks whose `pre_context` stays within `context * 2` share a
super-hunk; for context 0, one super-hunk per hunk. -/
def generateSuperHunks (context : Nat) (hunks : List Hunk) : List Superhunk :=
  if hunks.isEmpty then []
  else if context ≠ 0 then
    (sgLoop ((context : Int) * 2) [] [] hunks).map Superhunk.ofHunks
  else hunks.map fun h => Superhunk.ofHunks [h]

/-- Embedding of `PatchManager._get_context_range(super_hunk)`: extend both ranges by the
displayed context, `min(pre_context, context)` before and
`min(post_context, context)` after. -/
def getContextRange (context : Nat) (sh : Superhunk) : (Int × Int) × (Int × Int) :=
  ((sh.a_rng.1 - min sh.pre_context (context : Int),
    sh.a_rng.2 + min sh.post_context (context : Int)),
   (sh.b_rng.1 - min sh.pre_context (context : Int),
    sh.b_rng.2 + min sh.post_context (context : Int)))

/-- Embedding of `extend_context` inside `PatchManager._generate_diff`: the context lines
`a[start:end]`, each right-stripped, two-space indented and
newline-terminated. -/
def extendContext (a : List String) (start stop : Int) : String :=
  String.join ((pySlice a start stop).map fun line => "  " ++ pyRstrip line ++ "\n")

/-- The member loop of `PatchManager._generate_diff`: each hunk's colored
diff text, preceded by the unchanged gap to the previous member. -/
def gdLoop (a : List String) : Option Hunk → List Hunk → String
  | _, [] => ""
  | prev, h :: rest =>
    (match prev with
     | some p => extendContext a (p.a_rng.2 : Int) (h.a_rng.1 : Int)
     | none => "") ++ h.diff_text ++ gdLoop a (some h) rest

/-- Embedding of `PatchManager._generate_diff(hunks)`: the aqua super-hunk header over the
context-extended range, the leading context, the members interleaved with
their gaps, and the trailing context. -/
def generateDiff (a : List String) (context : Nat) (sh : Superhunk) : String :=
  let context_range := getContextRange context sh
  let a11 := get_header_text context_range.1 context_range.2
  let a22 := extendContext a context_range.1.1 (((sh.hunks.head?.getD dummyHunk).a_rng.1 : Int))
  "<<aqua>>" ++ a11 ++ "<<default>>\n" ++ a22 ++
    gdLoop a none sh.hunks ++
    extendContext a (((sh.hunks.getLast?.getD dummyHunk).a_rng.2 : Int)) context_range.1.2

/-- Embedding of `PatchManager`: the two line sequences, the opcode groups, the hunks
(with contexts filled in), the blocks view, the context setting, and the
super-hunks. -/
structure PatchManager where
  a : List String
  b : List String
  groups : List (List Opcode)
  hunks : List Hunk
  blocks : List Block
  context : Nat
  super_hunks : List Superhunk
deriving DecidableEq, Repr

/-- Embedding of `PatchManager.__init__` for given line sequences and opcode groups (the
groups are a parameter so that properties universal over the aligner's
contract can be stated; `mkPatchManager` instantiates them with the modelled
aligner). -/
def mkPatchManagerG (a b : List String) (groups : List (List Opcode))
    (context : Nat) : PatchManager :=
  let hunks := setContexts a.length 0 (groups.map (mkHunk a b))
  { a := a, b := b, groups := groups, hunks := hunks,
    blocks := get_blocks a.length groups, context := context,
    super_hunks := generateSuperHunks context hunks }

/-- Embedding of `PatchManager(text_a, text_b, context)`: split both texts into
terminator-preserving lines, align them, group with threshold 0, and build
hunks, blocks and super-hunks. -/
def mkPatchManager (text_a text_b : String) (context : Nat) : PatchManager :=
  let a := splitlinesTrue text_a
  let b := splitlinesTrue text_b
  mkPatchManagerG a b (groupOpcodes0 (getOpcodes a b)) context

/-- Embedding of `PatchManager.print_hunks()` with the output sink made explicit: `some`
of the string handed to `output` when there is at least one hunk, `none`
(no write at all) otherwise. -/
def print_hunks (pm : PatchManager) : Option String :=
  if pm.hunks.isEmpty then none
  else some (String.intercalate "\n"
    (pm.super_hunks.map (generateDiff pm.a pm.context)))

/-! ## The aligner contract (section 3/4.1 of the design)

Universal claims about `PatchManager` hold for any opcode groups satisfying
the contract the spec states for the external aligner: groups are non-empty
contiguous opcode runs, in order, the regions between/around them are equal
stretches of `a` and `b`, and each tag means what section 3 says. -/

/-- Tag semantics and range sanity of one opcode (section 3). -/
def opcodeWFb (a b : List String) (op : Opcode) : Bool :=
  decide (op.i1 ≤ op.i2) && decide (op.j1 ≤ op.j2) &&
  (match op.tag with
   | .equal => decide (slice a op.i1 op.i2 = slice b op.j1 op.j2) &&
       decide (op.i2 - op.i1 = op.j2 - op.j1)
   | .delete => decide (op.j1 = op.j2)
   | .insert => decide (op.i1 = op.i2)
   | .replace => decide (op.i1 < op.i2) && decide (op.j1 < op.j2))

/-- Contiguity inside one group: `i1` of each opcode equals `i2` of the
previous one, and likewise for `j` (section 3 invariant). -/
def groupChainB : List Opcode → Bool
  | [] => true
  | [_] => true
  | o1 :: o2 :: t =>
    decide (o1.i2 = o2.i1) && decide (o1.j2 = o2.j1) && groupChainB (o2 :: t)

/-- A well-formed group: non-empty, contiguous, all opcodes well-formed. -/
def groupWFb (a b : List String) (g : List Opcode) : Bool :=
  !g.isEmpty && groupChainB g && g.all (opcodeWFb a b)

/-- Well-formedness of a group list relative to a start position `(i, j)`:
every group is well-formed, starts at or after the running position with
equal-length equal content in between, and the tail of both sequences after
the last group is identical. -/
def groupsWFfrom (a b : List String) : Nat → Nat → List (List Opcode) → Bool
  | i, j, [] =>
    decide (i ≤ a.length) && decide (j ≤ b.length) &&
      decide (a.length - i = b.length - j) && decide (a.drop i = b.drop j)
  | i, j, g :: gs =>
    groupWFb a b g &&
      decide (i ≤ (firstOp g).i1) && decide (j ≤ (firstOp g).j1) &&
      decide ((firstOp g).i1 - i = (firstOp g).j1 - j) &&
      decide (slice a i (firstOp g).i1 = slice b j (firstOp g).j1) &&
      groupsWFfrom a b (lastOp g).i2 (lastOp g).j2 gs

/-- The aligner contract for a full group list (start position `(0, 0)`). -/
def groupsWFb (a b : List String) (groups : List (List Opcode)) : Bool :=
  groupsWFfrom a b 0 0 groups

/-! ## Claim-side formulations -/

/-- Formalizes "Concatenating the blocks' A-ranges in order yields exactly `[0, len(A))`
with no gaps and no overlaps": the ranges chain contiguously from `s` to
`e`. -/
def rngChainedB : Nat → List (Nat × Nat) → Nat → Bool
  | s, [], e => decide (s = e)
  | s, (x, y) :: rest, e => decide (s = x) && decide (x ≤ y) && rngChainedB y rest e

/-- The content a block contributes when a patch is applied: the A-range
lines for an unchanged block, the B-range lines for a hunk block (this is
the amended reading of the round-trip claim: a delete hunk contributes its
empty B-range, i.e. nothing). -/
def blockLines (a b : List String) (blk : Block) : List String :=
  if blk.idx = -1 then slice a blk.aRng.1 blk.aRng.2
  else slice b blk.bRng.1.toNat blk.bRng.2.toNat

/-- The round-trip claim's literal reading: "the A-range lines for unchanged
blocks and delete blocks, and the B-range lines for insert and replace
blocks" — a hunk block whose group holds a `delete` opcode contributes its
A-range lines. -/
def blockLinesClaim (a b : List String) (groups : List (List Opcode))
    (blk : Block) : List String :=
  if blk.idx = -1 then slice a blk.aRng.1 blk.aRng.2
  else if (groups.getD blk.idx.toNat []).any (fun op => op.tag = .delete) then
    slice a blk.aRng.1 blk.aRng.2
  else slice b blk.bRng.1.toNat blk.bRng.2.toNat

/-- The `pre_context` of the first member of a chunk. -/
def headPre (c : List Hunk) : Int := (c.head?.getD dummyHunk).pre_context

/-- The grouping-rule claim, as a predicate on a chunking of the hunk list:
the chunks concatenate back to the hunks in order, none is empty, a new
chunk starts exactly where `pre_context` exceeds the doubled context (every
chunk after the first opens with such a hunk, and no hunk inside a chunk
after its first exceeds it). -/
def chunksSpec (c2 : Int) (hunks : List Hunk) (chunks : List (List Hunk)) : Prop :=
  chunks.flatten = hunks ∧
    (∀ c ∈ chunks, c ≠ []) ∧
    (∀ c ∈ chunks.tail, c2 < headPre c) ∧
    (∀ c ∈ chunks, ∀ h ∈ c.tail, h.pre_context ≤ c2)

/-- The rendering claim's description of one opcode (claim C8): `equal`
lines two-space prefixed from A, `delete` lines `"- "`-prefixed from A,
`insert` lines `"+ "`-prefixed from B, `replace` rendered as the ndiff-style
line sequence of the two ranges (newline-guaranteed). -/
def claimRenderOp (a b : List String) (op : Opcode) : List String :=
  match op.tag with
  | .equal => (slice a op.i1 op.i2).map fun line => "  " ++ checkLine line
  | .delete => (slice a op.i1 op.i2).map fun line => "- " ++ checkLine line
  | .insert => (slice b op.j1 op.j2).map fun line => "+ " ++ checkLine line
  | .replace => (ndiffModel (slice a op.i1 op.i2) (slice b op.j1 op.j2)).map checkLine

/-! ## General-purpose lemmas -/

/-- Fold preserves any invariant that each step preserves. -/
theorem foldl_inv {α β : Type _} {P : β → Prop} {f : β → α → β} :
    ∀ (l : List α) (init : β), P init → (∀ acc x, x ∈ l → P acc → P (f acc x)) →
      P (l.foldl f init) := by
  intro l
  induction l with
  | nil => intro init h _; simpa using h
  | cons x xs ih =>
    intro init h hs
    simp only [List.foldl_cons]
    exact ih (f init x) (hs init x (List.mem_cons_self x xs) h)
      fun acc y hy hacc => hs acc y (List.mem_cons_of_mem x hy) hacc

theorem str_append_assoc (x y z : String) : x ++ y ++ z = x ++ (y ++ z) := by
  apply String.ext
  simp

theorem str_empty_append (x : String) : "" ++ x = x := by
  apply String.ext
  simp

theorem str_append_empty (x : String) : x ++ "" = x := by
  apply String.ext
  simp

theorem strJoin_foldl (l : List String) : ∀ x : String,
    l.foldl (fun r s => r ++ s) x = x ++ l.foldl (fun r s => r ++ s) "" := by
  induction l with
  | nil => intro x; simp [str_append_empty]
  | cons s t ih =>
    intro x
    simp only [List.foldl_cons]
    rw [ih (x ++ s), ih ("" ++ s), str_empty_append, str_append_assoc]

theorem strJoin_cons (s : String) (l : List String) :
    String.join (s :: l) = s ++ String.join l := by
  show (s :: l).foldl (fun r s => r ++ s) "" = _
  simp only [List.foldl_cons]
  rw [strJoin_foldl, str_empty_append]
  rfl

theorem strJoin_append (l₁ l₂ : List String) :
    String.join (l₁ ++ l₂) = String.join l₁ ++ String.join l₂ := by
  induction l₁ with
  | nil =>
    show String.join l₂ = String.join [] ++ String.join l₂
    rw [show String.join [] = "" from rfl, str_empty_append]
  | cons s t ih =>
    simp only [List.cons_append, strJoin_cons, ih, str_append_assoc]

/-- Two adjacent Python slices concatenate. -/
theorem slice_append_slice {α : Type _} (xs : List α) {i j k : Nat}
    (h₁ : i ≤ j) (h₂ : j ≤ k) : slice xs i j ++ slice xs j k = slice xs i k := by
  unfold slice
  have hdrop : xs.drop j = (xs.drop i).drop (j - i) := by
    rw [List.drop_drop]
    congr 1
    omega
  rw [hdrop]
  have : k - i = (j - i) + (k - j) := by omega
  rw [this, List.take_add]

/-- A slice followed by the drop at its end is the drop at its start. -/
theorem slice_append_drop {α : Type _} (xs : List α) {i j : Nat} (h : i ≤ j) :
    slice xs i j ++ xs.drop j = xs.drop i := by
  unfold slice
  have hdrop : xs.drop j = (xs.drop i).drop (j - i) := by
    rw [List.drop_drop]
    congr 1
    omega
  rw [hdrop, List.take_append_drop]

/-- A slice reaching the end of the list is the drop at its start. -/
theorem slice_to_length {α : Type _} (xs : List α) (i : Nat) :
    slice xs i xs.length = xs.drop i := by
  unfold slice
  apply List.take_of_length_le
  simp

/-! ## The aligner on identical inputs -/

theorem commonRunL_self [DecidableEq α] : ∀ l : List α, commonRunL l l = l.length
  | [] => rfl
  | x :: xs => by simp [commonRunL, commonRunL_self xs]

theorem flm_empty [DecidableEq α] (a b : List α) (x y : Nat) :
    findLongestMatch a b x x y y = (x, y, 0) := by
  unfold findLongestMatch
  simp

theorem flm_self [DecidableEq α] (a : List α) (n : Nat) (hlen : a.length = n)
    (hn : 0 < n) : findLongestMatch a a 0 n 0 n = (0, 0, n) := by
  obtain ⟨m, rfl⟩ : ∃ m, n = m + 1 := ⟨n - 1, by omega⟩
  have hkeep : ∀ (acc : Nat × Nat × Nat) (i j : Nat), acc = (0, 0, m + 1) → 1 ≤ i + j →
      flmCand a a (m + 1) (m + 1) acc i j = (0, 0, m + 1) := by
    intro acc i j hacc hij
    subst hacc
    unfold flmCand
    rw [if_neg]
    simp only
    have h1 : min (m + 1 - i) (m + 1 - j) ≤ m + 1 - i := min_le_left _ _
    have h2 : min (m + 1 - i) (m + 1 - j) ≤ m + 1 - j := min_le_right _ _
    have h3 : min (commonRunL (a.drop i) (a.drop j)) (min (m + 1 - i) (m + 1 - j)) ≤
        min (m + 1 - i) (m + 1 - j) := min_le_right _ _
    omega
  have hcr : commonRunL (a.drop 0) (a.drop 0) = m + 1 := by
    simpa [hlen] using commonRunL_self a
  have hc : flmCand a a (m + 1) (m + 1) (0, 0, 0) 0 0 = (0, 0, m + 1) := by
    unfold flmCand
    rw [hcr]
    simp
  have hinner : ∀ (best : Nat × Nat × Nat) (i : Nat), best = (0, 0, m + 1) → 1 ≤ i →
      List.foldl (fun b j => flmCand a a (m + 1) (m + 1) b i j) best
        (List.range' 0 (m + 1)) = (0, 0, m + 1) := by
    intro best i hb hi
    apply foldl_inv (P := fun x => x = (0, 0, m + 1)) _ _ hb
    intro acc j _ hacc
    exact hkeep acc i j hacc (by omega)
  have hinner0 : List.foldl (fun b j => flmCand a a (m + 1) (m + 1) b 0 j) (0, 0, 0)
      (List.range' 0 (m + 1)) = (0, 0, m + 1) := by
    rw [List.range'_succ]
    simp only [List.foldl_cons]
    rw [hc]
    apply foldl_inv (P := fun x => x = (0, 0, m + 1)) _ _ rfl
    intro acc j hj hacc
    exact hkeep acc 0 j hacc (by have := (List.mem_range'_1.mp hj).1; omega)
  unfold findLongestMatch
  simp only [Nat.sub_zero]
  generalize hF : (fun (best : Nat × Nat × Nat) (i : Nat) =>
      List.foldl (fun b j => flmCand a a (m + 1) (m + 1) b i j) best
        (List.range' 0 (m + 1))) = F
  rw [List.range'_succ]
  simp only [List.foldl_cons]
  have hF0 : F (0, 0, 0) 0 = (0, 0, m + 1) := by
    rw [← hF]
    exact hinner0
  rw [hF0]
  apply foldl_inv (P := fun x => x = (0, 0, m + 1)) _ _ rfl
  intro acc i hi hacc
  rw [← hF]
  exact hinner acc i hacc (by have := (List.mem_range'_1.mp hi).1; omega)

theorem mbAux_empty [DecidableEq α] (a b : List α) (fuel x y : Nat) :
    matchingBlocksAux a b fuel x x y y = [] := by
  cases fuel with
  | zero => rfl
  | succ f => simp [matchingBlocksAux, flm_empty]

theorem getOpcodes_self [DecidableEq α] (a : List α) :
    getOpcodes a a = if a.length = 0 then [] else [⟨.equal, 0, a.length, 0, a.length⟩] := by
  by_cases h : a.length = 0
  · have hblocks : matchingBlocks a a = [(a.length, a.length, 0)] := by
      unfold matchingBlocks
      rw [h]
      rw [mbAux_empty]
      simp [h]
    simp only [getOpcodes, hblocks, h, if_pos]
    simp [opcodesFromBlocks]
  · have hn : 0 < a.length := Nat.pos_of_ne_zero h
    have hblocks : matchingBlocks a a = [(0, 0, a.length), (a.length, a.length, 0)] := by
      unfold matchingBlocks
      rw [matchingBlocksAux]
      rw [flm_self a a.length rfl hn]
      simp only [h, if_neg]
      rw [mbAux_empty]
      have : matchingBlocksAux a a (a.length + a.length) (0 + a.length) a.length
          (0 + a.length) a.length = [] := by
        simp only [Nat.zero_add]
        exact mbAux_empty a a _ _ _
      rw [this]
      simp
    simp only [getOpcodes, hblocks]
    simp [opcodesFromBlocks, h, hn]

theorem groupOpcodes0_self [DecidableEq α] (a : List α) :
    groupOpcodes0 (getOpcodes a a) = [] := by
  rw [getOpcodes_self]
  by_cases h : a.length = 0
  · simp [h, groupOpcodes0, groupOpcodes0.go]
  · simp [h, groupOpcodes0, groupOpcodes0.go]

/-! ## Super-hunk grouping lemmas -/

theorem sgLoop_acc (c2 : Int) : ∀ (rest cur : List Hunk) (acc : List (List Hunk)),
    sgLoop c2 cur acc rest = acc ++ sgLoop c2 cur [] rest := by
  intro rest
  induction rest with
  | nil => intro cur acc; simp [sgLoop]
  | cons h t ih =>
    intro cur acc
    by_cases hc : (cur.isEmpty : Prop) ∨ h.pre_context ≤ c2
    · simp only [sgLoop, if_pos hc]
      rw [ih (cur ++ [h]) acc]
    · simp only [sgLoop, if_neg hc]
      rw [ih [h] (acc ++ [cur]), ih [h] ([] ++ [cur])]
      simp

theorem sgLoop_flatten (c2 : Int) : ∀ (rest cur : List Hunk) (acc : List (List Hunk)),
    (sgLoop c2 cur acc rest).flatten = acc.flatten ++ cur ++ rest := by
  intro rest
  induction rest with
  | nil => intro cur acc; simp [sgLoop]
  | cons h t ih =>
    intro cur acc
    by_cases hc : (cur.isEmpty : Prop) ∨ h.pre_context ≤ c2
    · simp only [sgLoop, if_pos hc]
      rw [ih (cur ++ [h]) acc]
      simp
    · simp only [sgLoop, if_neg hc]
      rw [ih [h] (acc ++ [cur])]
      simp

theorem sgLoop_ne_nil (c2 : Int) : ∀ (rest cur : List Hunk) (acc : List (List Hunk)),
    cur ≠ [] → (∀ c ∈ acc, c ≠ []) → ∀ c ∈ sgLoop c2 cur acc rest, c ≠ [] := by
  intro rest
  induction rest with
  | nil =>
    intro cur acc hcur hacc c hmem
    simp only [sgLoop] at hmem
    rcases List.mem_append.mp hmem with h | h
    · exact hacc c h
    · simpa [List.mem_singleton.mp h] using hcur
  | cons h t ih =>
    intro cur acc hcur hacc c hmem
    by_cases hc : (cur.isEmpty : Prop) ∨ h.pre_context ≤ c2
    · simp only [sgLoop, if_pos hc] at hmem
      exact ih (cur ++ [h]) acc (by simp) hacc c hmem
    · simp only [sgLoop, if_neg hc] at hmem
      refine ih [h] (acc ++ [cur]) (by simp) ?_ c hmem
      intro c' hc'
      rcases List.mem_append.mp hc' with h' | h'
      · exact hacc c' h'
      · simpa [List.mem_singleton.mp h'] using hcur

theorem sgLoop_headPre_all (c2 : Int) : ∀ (rest cur : List Hunk),
    cur ≠ [] → c2 < headPre cur → ∀ c ∈ sgLoop c2 cur [] rest, c2 < headPre c := by
  intro rest
  induction rest with
  | nil =>
    intro cur hcur hpre c hmem
    simp only [sgLoop, List.nil_append, List.mem_singleton] at hmem
    simpa [hmem] using hpre
  | cons h t ih =>
    intro cur hcur hpre c hmem
    by_cases hc : (cur.isEmpty : Prop) ∨ h.pre_context ≤ c2
    · simp only [sgLoop, if_pos hc] at hmem
      refine ih (cur ++ [h]) (by simp) ?_ c hmem
      obtain ⟨x, xs, rfl⟩ := List.exists_cons_of_ne_nil hcur
      simpa [headPre] using hpre
    · simp only [sgLoop, if_neg hc] at hmem
      rw [sgLoop_acc] at hmem
      rcases List.mem_append.mp hmem with h' | h'
      · simp only [List.nil_append, List.mem_singleton] at h'
        simpa [h'] using hpre
      · have hgt : c2 < h.pre_context := by
          push_neg at hc
          exact hc.2
        exact ih [h] (by simp) (by simpa [headPre] using hgt) c h'

theorem sgLoop_tail_starts (c2 : Int) : ∀ (rest cur : List Hunk), cur ≠ [] →
    ∀ c ∈ (sgLoop c2 cur [] rest).tail, c2 < headPre c := by
  intro rest
  induction rest with
  | nil =>
    intro cur hcur c hmem
    simp [sgLoop] at hmem
  | cons h t ih =>
    intro cur hcur c hmem
    by_cases hc : (cur.isEmpty : Prop) ∨ h.pre_context ≤ c2
    · simp only [sgLoop, if_pos hc] at hmem
      exact ih (cur ++ [h]) (by simp) c hmem
    · simp only [sgLoop, if_neg hc] at hmem
      rw [sgLoop_acc] at hmem
      simp only [List.nil_append, List.singleton_append, List.tail_cons] at hmem
      have hgt : c2 < h.pre_context := by
        push_neg at hc
        exact hc.2
      exact sgLoop_headPre_all c2 t [h] (by simp) (by simpa [headPre] using hgt) c hmem

theorem sgLoop_members_le (c2 : Int) : ∀ (rest cur : List Hunk), cur ≠ [] →
    (∀ x ∈ cur.tail, x.pre_context ≤ c2) →
    ∀ c ∈ sgLoop c2 cur [] rest, ∀ x ∈ c.tail, x.pre_context ≤ c2 := by
  intro rest
  induction rest with
  | nil =>
    intro cur hcur htail c hmem
    simp only [sgLoop, List.nil_append, List.mem_singleton] at hmem
    simpa [hmem] using htail
  | cons h t ih =>
    intro cur hcur htail c hmem
    by_cases hc : (cur.isEmpty : Prop) ∨ h.pre_context ≤ c2
    · simp only [sgLoop, if_pos hc] at hmem
      have hle : h.pre_context ≤ c2 := by
        rcases hc with he | hp
        · exact absurd (List.isEmpty_iff.mp he) hcur
        · exact hp
      refine ih (cur ++ [h]) (by simp) ?_ c hmem
      intro x hx
      obtain ⟨y, ys, rfl⟩ := List.exists_cons_of_ne_nil hcur
      simp only [List.cons_append, List.tail_cons] at hx
      rcases List.mem_append.mp hx with h' | h'
      · exact htail x (by simpa using h')
      · simpa [List.mem_singleton.mp h'] using hle
    · simp only [sgLoop, if_neg hc] at hmem
      rw [sgLoop_acc] at hmem
      rcases List.mem_append.mp hmem with h' | h'
      · simp only [List.nil_append, List.mem_singleton] at h'
        subst h'
        exact htail
      · exact ih [h] (by simp) (by simp) c h'

theorem sgLoop_all_le (c2 : Int) : ∀ (rest cur : List Hunk), cur ≠ [] →
    (∀ x ∈ rest, x.pre_context ≤ c2) → sgLoop c2 cur [] rest = [cur ++ rest] := by
  intro rest
  induction rest with
  | nil => intro cur hcur _; simp [sgLoop]
  | cons h t ih =>
    intro cur hcur hall
    have hc : (cur.isEmpty : Prop) ∨ h.pre_context ≤ c2 :=
      Or.inr (hall h (List.mem_cons_self h t))
    simp only [sgLoop, if_pos hc]
    rw [ih (cur ++ [h]) (by simp) (fun x hx => hall x (List.mem_cons_of_mem h hx))]
    simp

theorem flatten_map_singleton (l : List Hunk) :
    (l.map (fun h => [h])).flatten = l := by
  induction l with
  | nil => rfl
  | cons h t ih => simp [ih]

theorem ofHunks_hunks (l : List Hunk) : (Superhunk.ofHunks l).hunks = l := rfl

theorem genSuperHunks_zero (hunks : List Hunk) :
    generateSuperHunks 0 hunks = hunks.map fun h => Superhunk.ofHunks [h] := by
  cases hunks with
  | nil => simp [generateSuperHunks]
  | cons h t => simp [generateSuperHunks]

theorem genSuperHunks_pos (hunks : List Hunk) (context : Nat) (hne : hunks ≠ [])
    (hpos : 0 < context) :
    (generateSuperHunks context hunks).map (fun sh => sh.hunks) =
      sgLoop ((context : Int) * 2) (hunks.take 1) [] (hunks.drop 1) := by
  obtain ⟨h, t, rfl⟩ := List.exists_cons_of_ne_nil hne
  have hctx : context ≠ 0 := by omega
  have hgen : generateSuperHunks context (h :: t) =
      (sgLoop ((context : Int) * 2) [] [] (h :: t)).map Superhunk.ofHunks := by
    simp [generateSuperHunks, hctx]
  have hstep : sgLoop ((context : Int) * 2) [] [] (h :: t) =
      sgLoop ((context : Int) * 2) [h] [] t := by
    simp [sgLoop]
  rw [hgen, hstep, List.map_map]
  have hid : ((fun sh => sh.hunks) ∘ Superhunk.ofHunks : List Hunk → List Hunk) = id :=
    funext fun x => rfl
  rw [hid, List.map_id]
  simp

/-! ## Claims C3, C6, C7 -/

/-- C3: for every hunk list and context, `_generate_super_hunks` starts a new
super-hunk at hunk `k > 0` exactly when that hunk's `pre_context` exceeds
`2 * context`, and otherwise appends it to the current super-hunk (stated as
`chunksSpec` for positive context, and — given that inter-hunk gaps are
positive, as they are for hunks produced by grouping — also at context 0,
where the code builds one super-hunk per hunk); concretely, the three hunks
of the `K1/K2/K3 → X1/X2/X3` texts, separated by exactly one unchanged line
each, merge into a single super-hunk at context 1 and stay three separate
super-hunks at context 0. -/
theorem claim_C3 :
    (∀ (hunks : List Hunk) (context : Nat), hunks ≠ [] → 0 < context →
        chunksSpec ((context : Int) * 2) hunks
          ((generateSuperHunks context hunks).map (fun sh => sh.hunks))) ∧
    (∀ hunks : List Hunk, generateSuperHunks 0 hunks =
        hunks.map fun h => Superhunk.ofHunks [h]) ∧
    (∀ hunks : List Hunk, (∀ x ∈ hunks.tail, 0 < x.pre_context) →
        chunksSpec 0 hunks ((generateSuperHunks 0 hunks).map (fun sh => sh.hunks))) ∧
    (mkPatchManager "a\nK1\nc\nK2\ne\nK3\ng\n" "a\nX1\nc\nX2\ne\nX3\ng\n" 1).super_hunks.length = 1 ∧
    (mkPatchManager "a\nK1\nc\nK2\ne\nK3\ng\n" "a\nX1\nc\nX2\ne\nX3\ng\n" 0).super_hunks.length = 3 := by
  refine ⟨?_, genSuperHunks_zero, ?_, by decide, by decide⟩
  · intro hunks context hne hpos
    rw [genSuperHunks_pos hunks context hne hpos]
    obtain ⟨h, t, rfl⟩ := List.exists_cons_of_ne_nil hne
    simp only [List.take_succ_cons, List.take_zero, List.drop_succ_cons, List.drop_zero]
    refine ⟨?_, ?_, ?_, ?_⟩
    · simpa using sgLoop_flatten ((context : Int) * 2) t [h] []
    · exact sgLoop_ne_nil _ t [h] [] (by simp) (by simp)
    · exact sgLoop_tail_starts _ t [h] (by simp)
    · exact sgLoop_members_le _ t [h] (by simp) (by simp)
  · intro hunks hpre
    rw [genSuperHunks_zero, List.map_map]
    have hid : ((fun sh => sh.hunks) ∘ (fun h => Superhunk.ofHunks [h]) :
        Hunk → List Hunk) = fun h => [h] := funext fun x => rfl
    rw [hid]
    refine ⟨flatten_map_singleton hunks, ?_, ?_, ?_⟩
    · intro c hc
      obtain ⟨x, _, rfl⟩ := List.mem_map.mp hc
      simp
    · intro c hc
      rw [← List.map_tail] at hc
      obtain ⟨x, hx, rfl⟩ := List.mem_map.mp hc
      simpa [headPre] using hpre x hx
    · intro c hc
      obtain ⟨x, _, rfl⟩ := List.mem_map.mp hc
      simp

/-- Witness for C3 at a concrete input. -/
theorem claim_C3_witness :
    chunksSpec ((1 : Nat) * 2 : Int) [dummyHunk]
        ((generateSuperHunks 1 [dummyHunk]).map (fun sh => sh.hunks)) ∧
      chunksSpec 0 [dummyHunk]
        ((generateSuperHunks 0 [dummyHunk]).map (fun sh => sh.hunks)) :=
  ⟨by exact_mod_cast claim_C3.1 [dummyHunk] 1 (by simp) (by omega),
   claim_C3.2.2.1 [dummyHunk] (by simp)⟩

/-- C6: the context displayed on each side of a super-hunk by
`_get_context_range` is `min(available context, requested context)`, which
never decreases as the requested context grows; and as soon as the context
is positive and every inter-hunk gap (`pre_context` of the non-first hunks)
is below `2 * context`, `_generate_super_hunks` merges all hunks into a
single super-hunk. -/
theorem claim_C6 :
    (∀ (sh : Superhunk) (c c' : Nat), c ≤ c' →
        ((sh.a_rng.1 : Int) - (getContextRange c sh).1.1 = min sh.pre_context (c : Int) ∧
         (getContextRange c sh).1.2 - (sh.a_rng.2 : Int) = min sh.post_context (c : Int) ∧
         (sh.a_rng.1 : Int) - (getContextRange c sh).1.1 ≤
           (sh.a_rng.1 : Int) - (getContextRange c' sh).1.1 ∧
         (getContextRange c sh).1.2 - (sh.a_rng.2 : Int) ≤
           (getContextRange c' sh).1.2 - (sh.a_rng.2 : Int))) ∧
    (∀ (hunks : List Hunk) (context : Nat), 0 < context → hunks ≠ [] →
        (∀ x ∈ hunks.tail, x.pre_context < (context : Int) * 2) →
        generateSuperHunks context hunks = [Superhunk.ofHunks hunks]) ∧
    (∀ (ta tb : String) (context : Nat), 0 < context →
        (mkPatchManager ta tb context).hunks ≠ [] →
        (∀ x ∈ (mkPatchManager ta tb context).hunks.tail,
          x.pre_context < (context : Int) * 2) →
        (mkPatchManager ta tb context).super_hunks =
          [Superhunk.ofHunks (mkPatchManager ta tb context).hunks]) := by
  have hmerge : ∀ (hunks : List Hunk) (context : Nat), 0 < context → hunks ≠ [] →
      (∀ x ∈ hunks.tail, x.pre_context < (context : Int) * 2) →
      generateSuperHunks context hunks = [Superhunk.ofHunks hunks] := by
    intro hunks context hpos hne hlt
    obtain ⟨h, t, rfl⟩ := List.exists_cons_of_ne_nil hne
    have hctx : context ≠ 0 := by omega
    have hgen : generateSuperHunks context (h :: t) =
        (sgLoop ((context : Int) * 2) [] [] (h :: t)).map Superhunk.ofHunks := by
      simp [generateSuperHunks, hctx]
    have hstep : sgLoop ((context : Int) * 2) [] [] (h :: t) =
        sgLoop ((context : Int) * 2) [h] [] t := by
      simp [sgLoop]
    rw [hgen, hstep, sgLoop_all_le _ t [h] (by simp)
      (fun x hx => le_of_lt (hlt x (by simpa using hx)))]
    simp
  refine ⟨?_, hmerge, ?_⟩
  · intro sh c c' hcc
    simp only [getContextRange]
    have hcast : (c : Int) ≤ (c' : Int) := by exact_mod_cast hcc
    refine ⟨by omega, by omega, by omega, by omega⟩
  · intro ta tb context hpos hne hlt
    exact hmerge (mkPatchManager ta tb context).hunks context hpos hne hlt

/-- Witness for C6 at a concrete input. -/
theorem claim_C6_witness :
    generateSuperHunks 1 [dummyHunk] = [Superhunk.ofHunks [dummyHunk]] :=
  claim_C6.2.1 [dummyHunk] 1 (by omega) (by simp) (by simp)

/-- C7: comparing any text with itself yields zero hunks, and
`print_hunks` writes nothing to the output. -/
theorem claim_C7 (t : String) (context : Nat) :
    (mkPatchManager t t context).hunks = [] ∧
      print_hunks (mkPatchManager t t context) = none := by
  have hg : groupOpcodes0 (getOpcodes (splitlinesTrue t) (splitlinesTrue t)) = [] :=
    groupOpcodes0_self _
  constructor
  · simp [mkPatchManager, mkPatchManagerG, hg, setContexts]
  · simp [print_hunks, mkPatchManager, mkPatchManagerG, hg, setContexts]

/-- Witness for C7 at a concrete input. -/
theorem claim_C7_witness :
    (mkPatchManager "a\nb\n" "a\nb\n" 2).hunks = [] ∧
      print_hunks (mkPatchManager "a\nb\n" "a\nb\n" 2) = none :=
  claim_C7 "a\nb\n" 2

/-! ## Blocks: partition and reconstruction lemmas -/

theorem groupWFb_first_last (a b : List String) : ∀ (g : List Opcode),
    groupWFb a b g = true →
    (firstOp g).i1 ≤ (lastOp g).i2 ∧ (firstOp g).j1 ≤ (lastOp g).j2 := by
  intro g
  induction g with
  | nil => intro h; simp [groupWFb] at h
  | cons o1 rest ih =>
    intro h
    cases rest with
    | nil =>
      simp only [groupWFb, Bool.and_eq_true, List.all_eq_true] at h
      have hop := h.2 o1 (by simp)
      simp only [opcodeWFb, Bool.and_eq_true, decide_eq_true_eq] at hop
      exact ⟨hop.1.1, hop.1.2⟩
    | cons o2 t =>
      simp only [groupWFb, Bool.and_eq_true, List.all_eq_true] at h
      obtain ⟨⟨_, hchain⟩, hall⟩ := h
      simp only [groupChainB, Bool.and_eq_true, decide_eq_true_eq] at hchain
      obtain ⟨⟨hi12, hj12⟩, hchain'⟩ := hchain
      have hsub : groupWFb a b (o2 :: t) = true := by
        simp only [groupWFb, Bool.and_eq_true, List.all_eq_true]
        exact ⟨⟨by simp, hchain'⟩, fun x hx => hall x (List.mem_cons_of_mem _ hx)⟩
      have hih := ih hsub
      have hop := hall o1 (by simp)
      simp only [opcodeWFb, Bool.and_eq_true, decide_eq_true_eq] at hop
      have hll : lastOp (o1 :: o2 :: t) = lastOp (o2 :: t) := by
        simp [lastOp, List.getLast?_cons_cons]
      have hf2 : firstOp (o2 :: t) = o2 := rfl
      rw [hf2] at hih
      constructor
      · show o1.i1 ≤ (lastOp (o1 :: o2 :: t)).i2
        rw [hll]
        have h1 : o1.i1 ≤ o1.i2 := hop.1.1
        omega
      · show o1.j1 ≤ (lastOp (o1 :: o2 :: t)).j2
        rw [hll]
        have h1 : o1.j1 ≤ o1.j2 := hop.1.2
        omega

theorem groupsWFfrom_bounds (a b : List String) : ∀ (gs : List (List Opcode)) (i j : Nat),
    groupsWFfrom a b i j gs = true → i ≤ a.length ∧ j ≤ b.length := by
  intro gs
  induction gs with
  | nil =>
    intro i j h
    simp only [groupsWFfrom, Bool.and_eq_true, decide_eq_true_eq] at h
    exact ⟨h.1.1.1, h.1.1.2⟩
  | cons g gs ih =>
    intro i j h
    simp only [groupsWFfrom, Bool.and_eq_true, decide_eq_true_eq] at h
    obtain ⟨⟨⟨⟨⟨hgw, h1⟩, h2⟩, _⟩, _⟩, hrec⟩ := h
    obtain ⟨hfl1, hfl2⟩ := groupWFb_first_last a b g hgw
    obtain ⟨hb1, hb2⟩ := ih _ _ hrec
    exact ⟨by omega, by omega⟩

theorem rngChainedB_nil (s e : Nat) : rngChainedB s [] e = true ↔ s = e := by
  simp [rngChainedB]

theorem rngChainedB_cons (s e x y : Nat) (rest : List (Nat × Nat)) :
    rngChainedB s ((x, y) :: rest) e = true ↔
      s = x ∧ x ≤ y ∧ rngChainedB y rest e = true := by
  simp [rngChainedB, and_assoc]

theorem gbLoop_chained (a b : List String) : ∀ (gs : List (List Opcode)) (i j idx : Nat),
    groupsWFfrom a b i j gs = true →
    rngChainedB i ((gbLoop a.length i idx gs).map (fun blk => blk.aRng)) a.length = true := by
  intro gs
  induction gs with
  | nil =>
    intro i j idx h
    simp only [groupsWFfrom, Bool.and_eq_true, decide_eq_true_eq] at h
    obtain ⟨⟨⟨hia, _⟩, _⟩, _⟩ := h
    by_cases hi : i < a.length
    · simp only [gbLoop, if_pos hi, List.map_cons, List.map_nil]
      rw [rngChainedB_cons]
      exact ⟨rfl, by omega, (rngChainedB_nil _ _).mpr rfl⟩
    · have : i = a.length := by omega
      subst this
      simp only [gbLoop, lt_irrefl, if_false, List.map_nil]
      exact (rngChainedB_nil _ _).mpr rfl
  | cons g gs ih =>
    intro i j idx h
    simp only [groupsWFfrom, Bool.and_eq_true, decide_eq_true_eq] at h
    obtain ⟨⟨⟨⟨⟨hgw, h1⟩, h2⟩, h3⟩, h4⟩, hrec⟩ := h
    have hfl := (groupWFb_first_last a b g hgw).1
    have hih := ih (lastOp g).i2 (lastOp g).j2 (idx + 1) hrec
    by_cases hpos : i < (firstOp g).i1
    · simp only [gbLoop, if_pos hpos, List.cons_append, List.nil_append, List.map_cons]
      rw [rngChainedB_cons]
      refine ⟨rfl, le_of_lt hpos, ?_⟩
      rw [rngChainedB_cons]
      exact ⟨rfl, hfl, hih⟩
    · have heq : i = (firstOp g).i1 := by omega
      simp only [gbLoop, if_neg hpos, List.nil_append, List.map_cons]
      rw [rngChainedB_cons]
      exact ⟨heq, hfl, hih⟩

theorem gbLoop_gap_shape (alen : Nat) : ∀ (gs : List (List Opcode)) (i idx : Nat),
    ∀ blk ∈ gbLoop alen i idx gs, blk.idx = -1 →
      blk.bRng = (-1, -1) ∧ blk.aRng.1 < blk.aRng.2 := by
  intro gs
  induction gs with
  | nil =>
    intro i idx blk hmem hidx
    by_cases hi : i < alen
    · simp only [gbLoop, if_pos hi, List.mem_singleton] at hmem
      subst hmem
      exact ⟨rfl, hi⟩
    · simp [gbLoop, hi] at hmem
  | cons g gs ih =>
    intro i idx blk hmem hidx
    by_cases hpos : i < (firstOp g).i1
    · simp only [gbLoop, if_pos hpos, List.cons_append, List.nil_append,
        List.mem_cons] at hmem
      rcases hmem with rfl | rfl | hmem
      · exact ⟨rfl, hpos⟩
      · exact absurd hidx (by simp)
      · exact ih _ _ blk hmem hidx
    · simp only [gbLoop, if_neg hpos, List.nil_append, List.mem_cons] at hmem
      rcases hmem with rfl | hmem
      · exact absurd hidx (by simp)
      · exact ih _ _ blk hmem hidx

theorem gbLoop_idx (alen : Nat) : ∀ (gs : List (List Opcode)) (i idx : Nat),
    ((gbLoop alen i idx gs).filter (fun blk => blk.idx != -1)).map (fun blk => blk.idx) =
      (List.range' idx gs.length).map Int.ofNat := by
  intro gs
  induction gs with
  | nil =>
    intro i idx
    by_cases hi : i < alen
    · simp [gbLoop, hi]
    · simp [gbLoop, hi]
  | cons g gs ih =>
    intro i idx
    have hkeep : ((idx : Int) != -1) = true := by
      simp only [bne_iff_ne, ne_eq]
      omega
    by_cases hpos : i < (firstOp g).i1 <;>
      simp [gbLoop, hpos, List.filter_cons, hkeep, ih, List.range'_succ]

theorem gbLoop_content (a b : List String) : ∀ (gs : List (List Opcode)) (i j idx : Nat),
    groupsWFfrom a b i j gs = true →
    (gbLoop a.length i idx gs).flatMap (blockLines a b) = b.drop j := by
  intro gs
  induction gs with
  | nil =>
    intro i j idx h
    simp only [groupsWFfrom, Bool.and_eq_true, decide_eq_true_eq] at h
    obtain ⟨⟨⟨hia, hjb⟩, hlen⟩, hdrop⟩ := h
    by_cases hi : i < a.length
    · simp only [gbLoop, if_pos hi, List.flatMap_cons, List.flatMap_nil, List.append_nil]
      rw [show blockLines a b ⟨-1, (i, a.length), (-1, -1)⟩ =
        slice a i a.length from rfl]
      rw [slice_to_length, hdrop]
    · have : i = a.length := by omega
      subst this
      simp only [gbLoop, lt_irrefl, if_false, List.flatMap_nil]
      rw [← hdrop, List.drop_length]
  | cons g gs ih =>
    intro i j idx h
    simp only [groupsWFfrom, Bool.and_eq_true, decide_eq_true_eq] at h
    obtain ⟨⟨⟨⟨⟨hgw, h1⟩, h2⟩, h3⟩, h4⟩, hrec⟩ := h
    have hfl := groupWFb_first_last a b g hgw
    have hrecdrop := ih (lastOp g).i2 (lastOp g).j2 (idx + 1) hrec
    have hblk : blockLines a b ⟨(idx : Int), ((firstOp g).i1, (lastOp g).i2),
        (((firstOp g).j1 : Int), ((lastOp g).j2 : Int))⟩ =
        slice b (firstOp g).j1 (lastOp g).j2 := by
      simp only [blockLines]
      rw [if_neg (by omega)]
      simp
    by_cases hpos : i < (firstOp g).i1
    · simp only [gbLoop, if_pos hpos, List.cons_append, List.nil_append, List.flatMap_cons]
      rw [show blockLines a b ⟨-1, (i, (firstOp g).i1), (-1, -1)⟩ =
        slice a i (firstOp g).i1 from rfl]
      rw [h4, hblk, hrecdrop]
      rw [slice_append_drop b hfl.2, slice_append_drop b h2]
    · have heq : i = (firstOp g).i1 := by omega
      have hjeq : j = (firstOp g).j1 := by omega
      simp only [gbLoop, if_neg hpos, List.nil_append, List.flatMap_cons]
      rw [hblk, hrecdrop, slice_append_drop b hfl.2, hjeq]

theorem strMk_append (x y : List Char) :
    String.mk x ++ String.mk y = String.mk (x ++ y) := by
  apply String.ext
  simp

theorem strJoin_splitlinesGo : ∀ (cs acc : List Char),
    String.join (splitlinesTrue.go cs acc) = String.mk (acc.reverse ++ cs) := by
  intro cs
  induction cs with
  | nil =>
    intro acc
    by_cases hacc : acc.isEmpty
    · simp only [splitlinesTrue.go, hacc, if_pos]
      rw [List.isEmpty_iff.mp hacc]
      rfl
    · simp only [splitlinesTrue.go, hacc, Bool.false_eq_true, if_false, if_neg]
      rw [strJoin_cons]
      rw [show String.join [] = "" from rfl, str_append_empty]
      simp
  | cons c rest ih =>
    intro acc
    by_cases hc : c = '\n'
    · subst hc
      rw [show splitlinesTrue.go ('\n' :: rest) acc =
        String.mk (acc.reverse ++ ['\n']) :: splitlinesTrue.go rest [] from by
          simp [splitlinesTrue.go]]
      rw [strJoin_cons, ih [], strMk_append]
      apply congrArg
      simp
    · simp only [splitlinesTrue.go, hc, if_neg, if_false]
      rw [ih (c :: acc)]
      apply congrArg
      simp

theorem strJoin_splitlinesTrue (t : String) :
    String.join (splitlinesTrue t) = t := by
  unfold splitlinesTrue
  rw [strJoin_splitlinesGo]
  cases t
  rfl

/-! ## Claims C4, C5 -/

/-- C4: for any line sequences and any opcode groups satisfying the aligner
contract of the design (section 4.1 / section 3 invariant), the blocks of
`PatchManager.get_blocks()` partition the A line range: their A-ranges chain
contiguously from 0 to `len(A)` with no gaps and no overlaps, every
unchanged gap is a non-empty `(-1, (i1, i2), (-1, -1))` block, and the
changed blocks carry exactly the hunk indices `0, 1, …` in order. -/
theorem claim_C4 :
    (∀ (a b : List String) (groups : List (List Opcode)),
        groupsWFb a b groups = true →
        rngChainedB 0 ((get_blocks a.length groups).map (fun blk => blk.aRng))
            a.length = true ∧
          (∀ blk ∈ get_blocks a.length groups, blk.idx = -1 →
            blk.bRng = (-1, -1) ∧ blk.aRng.1 < blk.aRng.2) ∧
          ((get_blocks a.length groups).filter (fun blk => blk.idx != -1)).map
              (fun blk => blk.idx) =
            (List.range' 0 groups.length).map Int.ofNat) ∧
    (∀ (ta tb : String) (context : Nat),
        (mkPatchManager ta tb context).blocks =
          get_blocks (mkPatchManager ta tb context).a.length
            (mkPatchManager ta tb context).groups) := by
  refine ⟨?_, fun ta tb context => rfl⟩
  intro a b groups hwf
  refine ⟨gbLoop_chained a b groups 0 0 0 hwf, ?_, gbLoop_idx a.length groups 0 0⟩
  intro blk hmem hidx
  exact gbLoop_gap_shape a.length groups 0 0 blk hmem hidx

/-- Witness for C4 at a concrete input (the `x\ny\n → y\n` deletion). -/
theorem claim_C4_witness :
    rngChainedB 0 ((get_blocks (["x\n", "y\n"] : List String).length
        [[⟨.delete, 0, 1, 0, 0⟩]]).map (fun blk => blk.aRng))
        (["x\n", "y\n"] : List String).length = true ∧
      (∀ blk ∈ get_blocks (["x\n", "y\n"] : List String).length
          [[⟨.delete, 0, 1, 0, 0⟩]], blk.idx = -1 →
        blk.bRng = (-1, -1) ∧ blk.aRng.1 < blk.aRng.2) ∧
      ((get_blocks (["x\n", "y\n"] : List String).length
          [[⟨.delete, 0, 1, 0, 0⟩]]).filter (fun blk => blk.idx != -1)).map
          (fun blk => blk.idx) =
        (List.range' 0 [[(⟨.delete, 0, 1, 0, 0⟩ : Opcode)]].length).map Int.ofNat :=
  claim_C4.1 ["x\n", "y\n"] ["y\n"] [[⟨.delete, 0, 1, 0, 0⟩]] (by decide)

/-- C5, counterexample to the claim's literal reading: on
`text_a = "x\ny\n"`, `text_b = "y\n"` (a single delete hunk), concatenating
the A-range lines for the delete block — as the claim prescribes — yields
`"x\ny\n"`, which is `text_a`, not `text_b = "y\n"`. -/
theorem claim_C5_counterexample :
    String.join ((mkPatchManager "x\ny\n" "y\n" 0).blocks.flatMap
        (blockLinesClaim (mkPatchManager "x\ny\n" "y\n" 0).a
          (mkPatchManager "x\ny\n" "y\n" 0).b
          (mkPatchManager "x\ny\n" "y\n" 0).groups)) = "x\ny\n" ∧
      ("x\ny\n" : String) ≠ "y\n" ∧
      String.join (mkPatchManager "x\ny\n" "y\n" 0).b = "y\n" := by
  refine ⟨by decide, by decide, by decide⟩

/-- C5 (amended): using the B-range content for every hunk-tied block — a
delete block contributes its empty B-range, i.e. nothing — the blocks of
`get_blocks()` reconstruct `text_b` exactly, for any opcode groups
satisfying the aligner contract; the concrete conjunct checks the whole
pipeline on the deletion example. -/
theorem claim_C5 :
    (∀ (a b : List String) (groups : List (List Opcode)),
        groupsWFb a b groups = true →
        (get_blocks a.length groups).flatMap (blockLines a b) = b) ∧
    (∀ (ta tb : String) (groups : List (List Opcode)),
        groupsWFb (splitlinesTrue ta) (splitlinesTrue tb) groups = true →
        String.join ((get_blocks (splitlinesTrue ta).length groups).flatMap
          (blockLines (splitlinesTrue ta) (splitlinesTrue tb))) = tb) ∧
    String.join ((mkPatchManager "x\ny\n" "y\n" 0).blocks.flatMap
        (blockLines (mkPatchManager "x\ny\n" "y\n" 0).a
          (mkPatchManager "x\ny\n" "y\n" 0).b)) = "y\n" := by
  have huniv : ∀ (a b : List String) (groups : List (List Opcode)),
      groupsWFb a b groups = true →
      (get_blocks a.length groups).flatMap (blockLines a b) = b := by
    intro a b groups hwf
    have := gbLoop_content a b groups 0 0 0 hwf
    simpa [get_blocks] using this
  refine ⟨huniv, ?_, by decide⟩
  intro ta tb groups hwf
  rw [huniv _ _ _ hwf, strJoin_splitlinesTrue]

/-- Witness for C5 at a concrete input. -/
theorem claim_C5_witness :
    (get_blocks (["x\n", "y\n"] : List String).length
        [[⟨.delete, 0, 1, 0, 0⟩]]).flatMap
      (blockLines ["x\n", "y\n"] ["y\n"]) = ["y\n"] :=
  claim_C5.1 ["x\n", "y\n"] ["y\n"] [[⟨.delete, 0, 1, 0, 0⟩]] (by decide)

/-! ## Claims C1, C2 -/

/-- C1, counterexample to the claim as stated: on
`text_a = "line1\nline2\nline3\n"`, `text_b = "line1\nlineX\nline3\n"`,
`context = 0`, the pipeline produces exactly one hunk, but its header line
is `@@ -2 +2 @@` — the length-1 ranges omit the `,1` suffix — and not the
claimed `@@ -2,1 +2,1 @@`. -/
theorem claim_C1_counterexample :
    (mkPatchManager "line1\nline2\nline3\n" "line1\nlineX\nline3\n" 0).hunks.length = 1 ∧
      (mkPatchManager "line1\nline2\nline3\n" "line1\nlineX\nline3\n" 0).hunks.map
        (fun h => h.header) = ["@@ -2 +2 @@\n"] ∧
      ("@@ -2 +2 @@" : String) ≠ "@@ -2,1 +2,1 @@" := by
  refine ⟨by decide, by decide, by decide⟩

/-- C1 (amended): the scenario produces exactly one hunk, with header line
`@@ -2 +2 @@` (1-based line 2 changed on both sides, the length-1 range
written without the `,1` suffix per the standard unified range format of
section 4.2), and its body is the `replace` rendering of `line2 → lineX`
with `?` marker lines isolating the `2`/`X` column. -/
theorem claim_C1 :
    (mkPatchManager "line1\nline2\nline3\n" "line1\nlineX\nline3\n" 0).hunks.length = 1 ∧
      (mkPatchManager "line1\nline2\nline3\n" "line1\nlineX\nline3\n" 0).hunks.map
        (fun h => h.header) = ["@@ -2 +2 @@\n"] ∧
      (mkPatchManager "line1\nline2\nline3\n" "line1\nlineX\nline3\n" 0).groups =
        [[⟨.replace, 1, 2, 1, 2⟩]] ∧
      (mkPatchManager "line1\nline2\nline3\n" "line1\nlineX\nline3\n" 0).hunks.map
        (fun h => h.diff) =
        [["- line2\n", "?     ^\n", "+ lineX\n", "?     ^\n"]] ∧
      (mkPatchManager "line1\nline2\nline3\n" "line1\nlineX\nline3\n" 0).hunks.map
        (fun h => strContains h.diff_plain_text "- line2\n" &&
          strContains h.diff_plain_text "+ lineX\n") = [true] := by
  refine ⟨by decide, by decide, by decide, by decide, by decide⟩

/-- C2, evaluated at the failing input: the `c1/A/c2/B/c3/c4/c5` texts at
context 1 merge their two hunks into one super-hunk whose `a_rng`/`b_rng`
span first start to last end and whose `pre_context` is the first member's,
but whose `post_context` is also read from the FIRST member
(`self._hunks[0].post_context`, here 1) although the last member's
`post_context` is 3 — contradicting the design's "post_context inherited
from the last member". -/
theorem claim_C2 :
    (mkPatchManager "c1\nA\nc2\nB\nc3\nc4\nc5\n" "c1\nA2\nc2\nB2\nc3\nc4\nc5\n" 1).super_hunks.length = 1 ∧
      ∀ sh ∈ (mkPatchManager "c1\nA\nc2\nB\nc3\nc4\nc5\n" "c1\nA2\nc2\nB2\nc3\nc4\nc5\n" 1).super_hunks,
        sh.hunks.length = 2 ∧
        sh.a_rng = ((sh.hunks.head?.getD dummyHunk).a_rng.1,
          (sh.hunks.getLast?.getD dummyHunk).a_rng.2) ∧
        sh.b_rng = ((sh.hunks.head?.getD dummyHunk).b_rng.1,
          (sh.hunks.getLast?.getD dummyHunk).b_rng.2) ∧
        sh.pre_context = (sh.hunks.head?.getD dummyHunk).pre_context ∧
        sh.post_context = (sh.hunks.head?.getD dummyHunk).post_context ∧
        sh.post_context = 1 ∧
        (sh.hunks.getLast?.getD dummyHunk).post_context = 3 ∧
        sh.post_context ≠ (sh.hunks.getLast?.getD dummyHunk).post_context := by
  refine ⟨by decide, by decide⟩

/-! ## Claim C8 -/

theorem strEndsWith_append_nl (s : String) : strEndsWith (s ++ "\n") "\n" = true := by
  simp only [strEndsWith, decide_eq_true_eq]
  show ("\n").data <:+ (s ++ "\n").data
  have hdata : (s ++ "\n").data = s.data ++ ("\n").data := by simp
  rw [hdata]
  exact List.suffix_append s.data ("\n").data

theorem checkLine_nl (l : String) : strEndsWith (checkLine l) "\n" = true := by
  unfold checkLine
  by_cases h : strEndsWith l "\n" = true
  · simp [h]
  · simp only [h, Bool.false_eq_true, if_false]
    exact strEndsWith_append_nl l

theorem strEndsWith_append_left (s t : String) (h : strEndsWith t "\n" = true) :
    strEndsWith (s ++ t) "\n" = true := by
  simp only [strEndsWith, decide_eq_true_eq] at h ⊢
  have hdata : (s ++ t).data = s.data ++ t.data := by simp
  rw [hdata]
  exact h.trans (List.suffix_append s.data t.data)

/-- C8: every line yielded by `Hunk.create_diff` ends with a newline
(`check_line` appends one when missing), and the rendering is exactly the
claim's per-opcode description: `equal` lines two-space prefixed from A,
`delete` lines `"- "`-prefixed from A, `insert` lines `"+ "`-prefixed from
B, and `replace` the ndiff-style line sequence of the two ranges. -/
theorem claim_C8 (a b : List String) (group : List Opcode) :
    (∀ l ∈ createDiff a b group, strEndsWith l "\n" = true) ∧
      createDiff a b group = group.flatMap (claimRenderOp a b) := by
  constructor
  · intro l hl
    rw [createDiff] at hl
    obtain ⟨op, _, hl⟩ := List.mem_flatMap.mp hl
    cases htag : op.tag <;> rw [htag] at hl <;>
      obtain ⟨x, _, rfl⟩ := List.mem_map.mp hl
    · exact strEndsWith_append_left _ _ (checkLine_nl x)
    · exact strEndsWith_append_left _ _ (checkLine_nl x)
    · exact strEndsWith_append_left _ _ (checkLine_nl x)
    · exact checkLine_nl x
  · rfl

/-- Witness for C8 at a concrete input. -/
theorem claim_C8_witness :
    (∀ l ∈ createDiff ["a\n"] ["b\n"] [⟨.replace, 0, 1, 0, 1⟩],
        strEndsWith l "\n" = true) ∧
      createDiff ["a\n"] ["b\n"] [⟨.replace, 0, 1, 0, 1⟩] =
        [(⟨.replace, 0, 1, 0, 1⟩ : Opcode)].flatMap (claimRenderOp ["a\n"] ["b\n"]) :=
  claim_C8 ["a\n"] ["b\n"] [⟨.replace, 0, 1, 0, 1⟩]

/-! ## Claims C9, C10 -/

theorem renderLoop_unknown : ∀ (pairs : List (String × String)) (stack : List String)
    (out : String),
    (∀ p ∈ pairs, colorCode p.2 = none ∧ p.2 ≠ "previous") →
    (∀ s ∈ stack, colorCode s = none) →
    renderLoop stack out pairs = out ++ String.join (pairs.map (fun p => p.1)) := by
  intro pairs
  induction pairs with
  | nil =>
    intro stack out _ _
    simp only [renderLoop, List.map_nil]
    rw [show String.join [] = "" from rfl, str_append_empty]
  | cons p rest ih =>
    intro stack out hp hs
    obtain ⟨text, nc⟩ := p
    have hnc := hp (text, nc) (List.mem_cons_self _ _)
    have hcur : colorCode (stack.head?.getD "default") = none := by
      cases stack with
      | nil =>
        show colorCode "default" = none
        decide
      | cons s ss => exact hs s (by simp)
    simp only [renderLoop, if_neg hnc.2, hcur]
    rw [ih (nc :: stack) (out ++ text) (fun q hq => hp q (List.mem_cons_of_mem _ hq)) ?_]
    · rw [List.map_cons, strJoin_cons, str_append_assoc]
    · intro s hsmem
      rcases List.mem_cons.mp hsmem with rfl | hsmem
      · exact hnc.1
      · exact hs s hsmem

/-- C9: `make_str` degrades gracefully — non-string inputs are returned
unchanged; a string with no `\x03` and no `<<` is returned unchanged (the
identity fast path); and tag spans whose color names are absent from the
color table (including `"default"` itself) are emitted with no styling:
every rendered pair whose color fails the table lookup contributes its text
verbatim, as the concrete unknown-color tag string confirms end to end. -/
theorem claim_C9 :
    (∀ v : Nat, make_str (.nonStr v) = .nonStr v) ∧
    (∀ t : String, strContains t "\x03" = false → strContains t "<<" = false →
        makeStr t = t) ∧
    (∀ pairs : List (String × String),
        (∀ p ∈ pairs, colorCode p.2 = none ∧ p.2 ≠ "previous") →
        renderLoop ["default"] "" pairs = String.join (pairs.map (fun p => p.1))) ∧
    makeStr "<<unknowncolor>>hello<<bogus>>bye" = "hellobye" ∧
    colorCode "default" = none := by
  refine ⟨fun v => rfl, ?_, ?_, by decide, by decide⟩
  · intro t h1 h2
    simp [makeStr, h1, h2]
  · intro pairs hp
    have hd : ∀ s ∈ ["default"], colorCode s = none := by
      intro s hsmem
      rcases List.mem_singleton.mp hsmem with rfl
      decide
    have := renderLoop_unknown pairs ["default"] "" hp hd
    rwa [str_empty_append] at this

/-- Witness for C9 at a concrete input. -/
theorem claim_C9_witness :
    makeStr "plain text" = "plain text" ∧
      renderLoop ["default"] "" [("abc", "unknowncolor")] =
        String.join ([("abc", "unknowncolor")].map (fun p => p.1)) :=
  ⟨claim_C9.2.1 "plain text" (by decide) (by decide),
   claim_C9.2.2.1 [("abc", "unknowncolor")] (by decide)⟩

theorem colorCode_semi (s : String) (h : ';' ∈ s.data) :
    s ≠ "previous" ∧ colorCode s = none := by
  constructor
  · intro he
    subst he
    exact absurd h (by decide)
  · show colorCode.go s colorEntries = none
    have hgo : ∀ l : List (String × Nat), (∀ k ∈ l, ';' ∉ k.1.data) →
        colorCode.go s l = none := by
      intro l
      induction l with
      | nil => intro _; rfl
      | cons kv rest ih =>
        intro hk
        simp only [colorCode.go]
        rw [if_neg, ih (fun k hkk => hk k (List.mem_cons_of_mem _ hkk))]
        intro he
        have := hk kv (List.mem_cons_self _ _)
        rw [he] at this
        exact this h
    exact hgo colorEntries (by decide)

/-- C10: a two-token tag body `name;other` is one unit in `make_str`: any
body containing a semicolon is never `"previous"` (so it is pushed onto the
color stack as a single entry) and never a key of the color table (so its
span is rendered with no styling); `Hunk.color_line` emits exactly such
`<<default;lightred>>` tags for deleted whitespace characters, and the
concrete render shows the tagged span coming out with no escape codes and
the following `<<previous>>` popping back to the default state. -/
theorem claim_C10 :
    (∀ s : String, ';' ∈ s.data → s ≠ "previous" ∧ colorCode s = none) ∧
    colorLine "- ab \n" (some "?   -\n") =
      "<<lightred>>-<<default>> ab<<default;lightred>> <<default>>\n" ∧
    strContains (colorLine "- ab \n" (some "?   -\n")) "<<default;lightred>>" = true ∧
    makeStr "<<default;lightred>> <<previous>>x" = " x" ∧
    strContains (makeStr "<<default;lightred>> <<previous>>x") "\x1b" = false := by
  refine ⟨fun s h => colorCode_semi s h, by decide, by decide, by decide, by decide⟩

/-- Witness for C10 at a concrete input. -/
theorem claim_C10_witness :
    ("default;lightred" : String) ≠ "previous" ∧
      colorCode "default;lightred" = none :=
  claim_C10.1 "default;lightred" (by decide)

end Diff
